import Mathlib

/-!
Verification development for the multi-scale blob detection engine
(LoG / DoG / DoH) described in the repository's specification.  The
repository source only contains the example driver script
`doc/examples/plot_blob.py`; the engine itself is modelled from the
specification, component by component (Scale-Space Builder, Response
Cube Generator, Local Extrema Detector, Blob Pruner, Dispatcher).

Numeric conventions: image samples, response values, sigmas, thresholds
and the `overlap` parameter are rationals; the exact disk-disk
intersection-area formula used by the Blob Pruner (which involves
`arccos`, `sqrt` and `π`) is over the reals, as is the reported blob
radius `sigma * sqrt 2` of LoG/DoG.  Edge policy (left open by the
spec): convolution and 3x3x3 neighbourhood comparisons clamp indices to
the valid range; DoH box filters whose footprint would leave the image
are excluded from the candidate search (their response is zero).
-/

namespace BlobDetect

open List

/-! ## Data model -/

/-- Modelled from the spec: an immutable 2-D raster of rational samples,
row-major, dimensions `(H, W)`; the engine only reads it. -/
structure Image where
  H : ℕ
  W : ℕ
  pix : ℕ → ℕ → ℚ

/-- Modelled from the spec: the 3-D response volume indexed
`(scale_index, row, col)`. -/
structure Cube where
  S : ℕ
  H : ℕ
  W : ℕ
  val : ℕ → ℕ → ℕ → ℚ

/-- Blob polarity: bright-on-dark or dark-on-bright. -/
inductive Polarity where
  | bright
  | dark
deriving DecidableEq

/-- Modelled from the spec: a candidate detection
`(row, col, sigma, response, polarity)` produced by the Local Extrema
Detector. -/
structure Cand where
  row : ℕ
  col : ℕ
  sigma : ℚ
  resp : ℚ
  pol : Polarity
deriving DecidableEq

/-- Modelled from the spec: the final output entity
`(row, col, radius, polarity)`; the radius already includes the
per-algorithm scale factor. -/
structure Blob where
  row : ℚ
  col : ℚ
  radius : ℝ
  pol : Polarity

/-- Modelled from the spec: the error kinds of the engine. -/
inductive BlobError where
  | InvalidParameter
  | EmptyImage
deriving DecidableEq

/-! ## Scale-Space Builder -/

/-- Clamp an integer index into `[0, n-1]` (edge-clamped access). -/
def clampIdx (n : ℕ) (i : ℤ) : ℕ := (min (max i 0) ((n : ℤ) - 1)).toNat

/-- Edge-clamped pixel read. -/
def Image.pixC (img : Image) (r c : ℤ) : ℚ :=
  img.pix (clampIdx img.H r) (clampIdx img.W c)

/-- Truncated Taylor polynomial of the exponential, used as the rational
stand-in for `exp`. -/
def expPoly (x : ℚ) : ℚ := ∑ k ∈ Finset.range 13, x ^ k / (Nat.factorial k : ℚ)

/-- Modelled from the spec: the engine's Gaussian kernel weights are
`exp (-u)` samples; over the rationals the decaying exponential is
represented by `1 / expPoly u` (positive and decreasing for `u ≥ 0`). -/
def expNeg (u : ℚ) : ℚ := 1 / expPoly u

/-- Truncation radius of the discrete Gaussian kernel (three sigmas). -/
def kernRadius (s : ℚ) : ℕ := (⌈3 * s⌉).toNat

/-- Raw (unnormalised) Gaussian weight at offset `i`. -/
def gaussWRaw (s : ℚ) (i : ℤ) : ℚ := expNeg ((i : ℚ) ^ 2 / (2 * s ^ 2))

/-- Normalisation constant of the truncated kernel. -/
def gaussWSum (s : ℚ) : ℚ :=
  ∑ k ∈ Finset.range (2 * kernRadius s + 1), gaussWRaw s ((k : ℤ) - (kernRadius s : ℤ))

/-- Normalised Gaussian weight (the weights sum to 1). -/
def gaussW (s : ℚ) (i : ℤ) : ℚ := gaussWRaw s i / gaussWSum s

/-- Horizontal pass of the separable Gaussian smoothing. -/
def smoothH (s : ℚ) (img : Image) : Image :=
  ⟨img.H, img.W, fun r c =>
    ∑ k ∈ Finset.range (2 * kernRadius s + 1),
      gaussW s ((k : ℤ) - (kernRadius s : ℤ)) *
        img.pixC (r : ℤ) ((c : ℤ) + ((k : ℤ) - (kernRadius s : ℤ)))⟩

/-- Vertical pass of the separable Gaussian smoothing. -/
def smoothV (s : ℚ) (img : Image) : Image :=
  ⟨img.H, img.W, fun r c =>
    ∑ k ∈ Finset.range (2 * kernRadius s + 1),
      gaussW s ((k : ℤ) - (kernRadius s : ℤ)) *
        img.pixC ((r : ℤ) + ((k : ℤ) - (kernRadius s : ℤ))) (c : ℤ)⟩

/-- Separable Gaussian smoothing: two 1-D passes. -/
def gaussSmooth (s : ℚ) (img : Image) : Image := smoothV s (smoothH s img)

/-- Discrete Laplacian (second-derivative sum) with clamped edges. -/
def laplacian (img : Image) (r c : ℕ) : ℚ :=
  img.pixC ((r : ℤ) + 1) (c : ℤ) + img.pixC ((r : ℤ) - 1) (c : ℤ) +
    img.pixC (r : ℤ) ((c : ℤ) + 1) + img.pixC (r : ℤ) ((c : ℤ) - 1) -
    4 * img.pix r c

/-- Linearly spaced sigma list from `mins` to `maxs` with `n` entries. -/
def sigmaListLin (mins maxs : ℚ) (n : ℕ) : List ℚ :=
  (List.range n).map fun k => mins + (k : ℚ) * (maxs - mins) / ((n : ℚ) - 1)

/-! ## Response Cube Generator: LoG -/

/-- LoG response cube: layer `k` is the sigma-squared-normalised discrete
Laplacian of the image smoothed at `sigmas[k]`. -/
def logCube (img : Image) (sigmas : List ℚ) : Cube :=
  ⟨sigmas.length, img.H, img.W, fun k r c =>
    (sigmas.getD k 0) ^ 2 * laplacian (gaussSmooth (sigmas.getD k 0) img) r c⟩

/-! ## Response Cube Generator: DoG -/

/-- Geometric growth overtakes any bound (used to size the DoG sigma
list). -/
theorem exists_pow_ge {ratio mins : ℚ} (hr : 1 < ratio) (hm : 0 < mins) (maxs : ℚ) :
    ∃ n : ℕ, maxs ≤ mins * ratio ^ n := by
  rcases le_or_lt maxs 0 with h0 | h0
  · exact ⟨0, by simpa using le_trans h0 hm.le⟩
  · obtain ⟨n, hn⟩ := exists_nat_ge (maxs / (mins * (ratio - 1)))
    refine ⟨n, ?_⟩
    have hber : 1 + (n : ℚ) * (ratio - 1) ≤ (1 + (ratio - 1)) ^ n :=
      one_add_mul_le_pow (by linarith) n
    have hrn : 1 + (n : ℚ) * (ratio - 1) ≤ ratio ^ n := by
      simpa using hber
    have hpos : 0 < mins * (ratio - 1) := mul_pos hm (by linarith)
    have hge : maxs ≤ (n : ℚ) * (mins * (ratio - 1)) := by
      have := (div_le_iff₀ hpos).mp hn
      linarith
    nlinarith

/-- DoG sigma list: geometric progression `mins * ratio ^ k` up to the
first value that reaches `maxs`. -/
def dogSigmaList (mins ratio maxs : ℚ) : List ℚ :=
  if h : 1 < ratio ∧ 0 < mins then
    (List.range (Nat.find (exists_pow_ge h.1 h.2 maxs) + 1)).map fun k => mins * ratio ^ k
  else [mins]

/-- DoG response cube: differences of consecutive smoothed images scaled
by the sigma gap; layer `k` carries sigma `sigmas[k]`. -/
def dogCube (img : Image) (sigmas : List ℚ) : Cube :=
  ⟨sigmas.length - 1, img.H, img.W, fun k r c =>
    ((gaussSmooth (sigmas.getD (k + 1) 0) img).pix r c -
        (gaussSmooth (sigmas.getD k 0) img).pix r c) /
      (sigmas.getD (k + 1) 0 - sigmas.getD k 0)⟩

/-! ## Response Cube Generator: DoH (integral image and box filters) -/

/-- Summed-area (integral) image: `integralImage img r c` is the sum of
all pixels in rows `< r` and columns `< c`. -/
def integralImage (img : Image) (r c : ℕ) : ℚ :=
  ∑ i ∈ Finset.range (min r img.H), ∑ j ∈ Finset.range (min c img.W), img.pix i j

/-- Sum of the box with rows in `[r1, r2)` and columns in `[c1, c2)`, via
four integral-image lookups. -/
def boxSum (img : Image) (r1 c1 r2 c2 : ℕ) : ℚ :=
  integralImage img r2 c2 - integralImage img r1 c2 - integralImage img r2 c1 +
    integralImage img r1 c1

/-- Half-width of the DoH box filters at scale `s`. -/
def hWidth (s : ℚ) : ℕ := max 1 (⌈s⌉.toNat)

/-- Box-filter approximation of the second derivative `Lxx`: three
side-by-side `(2h+1) x (2h+1)` boxes with weights `1, -2, 1`. -/
def dohDxx (img : Image) (h r c : ℕ) : ℚ :=
  boxSum img (r - h) (c - (3 * h + 1)) (r + h + 1) (c - h) -
    2 * boxSum img (r - h) (c - h) (r + h + 1) (c + h + 1) +
    boxSum img (r - h) (c + h + 1) (r + h + 1) (c + (3 * h + 2))

/-- Box-filter approximation of the second derivative `Lyy`. -/
def dohDyy (img : Image) (h r c : ℕ) : ℚ :=
  boxSum img (r - (3 * h + 1)) (c - h) (r - h) (c + h + 1) -
    2 * boxSum img (r - h) (c - h) (r + h + 1) (c + h + 1) +
    boxSum img (r + h + 1) (c - h) (r + (3 * h + 2)) (c + h + 1)

/-- Box-filter approximation of the mixed derivative `Lxy`: four `h x h`
quadrant boxes with weights `1, -1, -1, 1`. -/
def dohDxy (img : Image) (h r c : ℕ) : ℚ :=
  boxSum img (r - h) (c - h) r c - boxSum img (r - h) (c + 1) r (c + h + 1) -
    boxSum img (r + 1) (c - h) (r + h + 1) c +
    boxSum img (r + 1) (c + 1) (r + h + 1) (c + h + 1)

/-- The DoH box-filter footprint at half-width `hw` centred at `(r, c)`
lies entirely inside the image. -/
def dohFits (img : Image) (hw r c : ℕ) : Prop :=
  3 * hw + 1 ≤ r ∧ r + 3 * hw + 2 ≤ img.H ∧ 3 * hw + 1 ≤ c ∧ c + 3 * hw + 2 ≤ img.W

instance (img : Image) (hw r c : ℕ) : Decidable (dohFits img hw r c) := by
  unfold dohFits; infer_instance

/-- Scale-normalised determinant of the box-filter Hessian; pixels whose
footprint leaves the image are excluded from the search (response 0). -/
def dohDet (img : Image) (s : ℚ) (r c : ℕ) : ℚ :=
  if dohFits img (hWidth s) r c then
    (dohDxx img (hWidth s) r c * dohDyy img (hWidth s) r c -
        dohDxy img (hWidth s) r c ^ 2) / s ^ 4
  else 0

/-- Scale-normalised trace `Lxx + Lyy` of the box-filter Hessian. -/
def dohTrace (img : Image) (s : ℚ) (r c : ℕ) : ℚ :=
  (dohDxx img (hWidth s) r c + dohDyy img (hWidth s) r c) / s ^ 2

/-- DoH response cube: layer `k` is `det (Hessian)` at scale
`sigmas[k]`. -/
def dohCube (img : Image) (sigmas : List ℚ) : Cube :=
  ⟨sigmas.length, img.H, img.W, fun k r c => dohDet img (sigmas.getD k 0) r c⟩

/-! ## Local Extrema Detector -/

/-- The 26 offsets of the 3x3x3 neighbourhood (centre excluded). -/
def offsets : List (ℤ × ℤ × ℤ) :=
  ((([-1, 0, 1] : List ℤ).flatMap fun a =>
      (([-1, 0, 1] : List ℤ).flatMap fun b =>
        (([-1, 0, 1] : List ℤ).map fun c => (a, b, c))))).filter
    fun o => o != ((0 : ℤ), (0 : ℤ), (0 : ℤ))

/-- Edge-clamped cube read (reflective/edge-clamped comparison at cube
boundaries). -/
def Cube.valC (cube : Cube) (s r c : ℤ) : ℚ :=
  cube.val (clampIdx cube.S s) (clampIdx cube.H r) (clampIdx cube.W c)

/-- `(s, r, c)` is a candidate peak: response magnitude above `t`, and no
3x3x3 neighbour strictly exceeds it in magnitude. -/
def isPeakB (cube : Cube) (t : ℚ) (s r c : ℕ) : Bool :=
  decide (t < |cube.val s r c|) &&
    offsets.all fun o =>
      decide (|cube.valC ((s : ℤ) + o.1) ((r : ℤ) + o.2.1) ((c : ℤ) + o.2.2)| ≤ |cube.val s r c|)

/-- Scan order of the cube: all `(scale, row, col)` index triples. -/
def cubeIndices (cube : Cube) : List (ℕ × ℕ × ℕ) :=
  List.range cube.S ×ˢ (List.range cube.H ×ˢ List.range cube.W)

/-- Local Extrema Detector: all in-range triples whose response magnitude
exceeds `t` and which are 3x3x3 local extrema (ties allowed, no neighbour
strictly larger). -/
def localExtrema (cube : Cube) (t : ℚ) : List (ℕ × ℕ × ℕ) :=
  (cubeIndices cube).filter fun i => isPeakB cube t i.1 i.2.1 i.2.2

/-- Build a candidate from a cube index triple. -/
def mkCand (sigmas : List ℚ) (cube : Cube) (polAt : ℕ → ℕ → ℕ → Polarity)
    (i : ℕ × ℕ × ℕ) : Cand :=
  { row := i.2.1, col := i.2.2, sigma := sigmas.getD i.1 0,
    resp := cube.val i.1 i.2.1 i.2.2, pol := polAt i.1 i.2.1 i.2.2 }

/-! ## Blob Pruner -/

/-- Processing order of the pruner: response magnitude descending, ties
broken by larger sigma (hence larger radius) first. -/
def candLE (a b : Cand) : Prop :=
  |b.resp| < |a.resp| ∨ (|a.resp| = |b.resp| ∧ b.sigma ≤ a.sigma)

instance : DecidableRel candLE := fun a b => by unfold candLE; infer_instance

instance : IsTotal Cand candLE :=
  ⟨by
    intro a b
    rcases lt_trichotomy |a.resp| |b.resp| with h | h | h
    · exact Or.inr (Or.inl h)
    · rcases le_total b.sigma a.sigma with hs | hs
      · exact Or.inl (Or.inr ⟨h, hs⟩)
      · exact Or.inr (Or.inr ⟨h.symm, hs⟩)
    · exact Or.inl (Or.inl h)⟩

instance : IsTrans Cand candLE :=
  ⟨by
    intro a b c hab hbc
    rcases hab with h1 | ⟨e1, s1⟩
    · rcases hbc with h2 | ⟨e2, s2⟩
      · exact Or.inl (h2.trans h1)
      · exact Or.inl (e2 ▸ h1)
    · rcases hbc with h2 | ⟨e2, s2⟩
      · exact Or.inl (by rw [e1]; exact h2)
      · exact Or.inr ⟨e1.trans e2, s2.trans s1⟩⟩

/-- Sort candidates by response magnitude descending (larger radius wins
ties); insertion sort is stable. -/
def sortCands (l : List Cand) : List Cand := l.insertionSort candLE

/-- Modelled from the spec: exact disk-disk intersection-area ratio,
`intersection area / area of the smaller disk`, for disks of radii
`r1, r2` centred at `(y1, x1)` and `(y2, x2)`.  Zero for disjoint disks,
one when the smaller disk is contained in the larger, and the circular
lens area formula otherwise. -/
noncomputable def overlapFraction (y1 x1 : ℚ) (r1 : ℝ) (y2 x2 : ℚ) (r2 : ℝ) : ℝ :=
  let d : ℝ := Real.sqrt (((y1 - y2 : ℚ) : ℝ) ^ 2 + ((x1 - x2 : ℚ) : ℝ) ^ 2)
  if r1 + r2 ≤ d then 0
  else if d ≤ |r1 - r2| then 1
  else
    (r1 ^ 2 * Real.arccos ((d ^ 2 + r1 ^ 2 - r2 ^ 2) / (2 * d * r1)) +
        r2 ^ 2 * Real.arccos ((d ^ 2 + r2 ^ 2 - r1 ^ 2) / (2 * d * r2)) -
        Real.sqrt ((-d + r1 + r2) * (d + r1 - r2) * (d - r1 + r2) * (d + r1 + r2)) / 2) /
      (Real.pi * min r1 r2 ^ 2)

/-- Disk-overlap fraction of two output blobs. -/
noncomputable def blobOverlap (b1 b2 : Blob) : ℝ :=
  overlapFraction b1.row b1.col b1.radius b2.row b2.col b2.radius

/-- Disk-overlap fraction of two candidates, as disks of their
algorithm-scaled radii (`rad` maps sigma to physical radius). -/
noncomputable def candOverlap (rad : ℚ → ℝ) (a b : Cand) : ℝ :=
  overlapFraction (a.row : ℚ) (a.col : ℚ) (rad a.sigma) (b.row : ℚ) (b.col : ℚ) (rad b.sigma)

/-- A candidate is compatible with a kept one when their overlap fraction
is at most `ov`. -/
def compat (rad : ℚ → ℝ) (ov : ℚ) (k c : Cand) : Prop :=
  candOverlap rad k c ≤ (ov : ℝ)

open Classical in
/-- Greedy pass of the pruner: keep a candidate exactly when it is
compatible with every already-kept candidate. -/
noncomputable def greedyAux (rad : ℚ → ℝ) (ov : ℚ) : List Cand → List Cand → List Cand
  | _, [] => []
  | kept, c :: cs =>
    if ∀ k ∈ kept, compat rad ov k c then c :: greedyAux rad ov (kept ++ [c]) cs
    else greedyAux rad ov kept cs

/-- Blob Pruner: sort by response magnitude descending and greedily drop
overlapping candidates; with `overlap = 1` pruning is disabled and the
sorted candidates are returned unfiltered. -/
noncomputable def pruneBlobs (rad : ℚ → ℝ) (ov : ℚ) (l : List Cand) : List Cand :=
  if ov = 1 then sortCands l else greedyAux rad ov [] (sortCands l)

/-! ## Facade / Dispatcher -/

/-- LoG parameters, with defaults supplied for every field. -/
structure LogParams where
  min_sigma : ℚ := 1
  max_sigma : ℚ := 50
  num_sigma : ℕ := 10
  threshold : ℚ := 1 / 5
  overlap : ℚ := 1 / 2

/-- DoG parameters, with defaults supplied for every field. -/
structure DogParams where
  min_sigma : ℚ := 1
  max_sigma : ℚ := 50
  sigma_ratio : ℚ := 8 / 5
  threshold : ℚ := 2
  overlap : ℚ := 1 / 2

/-- DoH parameters, with defaults supplied for every field. -/
structure DohParams where
  min_sigma : ℚ := 1
  max_sigma : ℚ := 30
  num_sigma : ℕ := 10
  threshold : ℚ := 1 / 100
  overlap : ℚ := 1 / 2
  detect_polarity : Option Polarity := none

/-- Validation shared by the three entry points: sigmas strictly
positive, `min_sigma ≤ max_sigma`, `threshold > 0`, `overlap` in
`[0, 1]`. -/
def validCommon (mins maxs t ov : ℚ) : Prop :=
  0 < mins ∧ 0 < maxs ∧ mins ≤ maxs ∧ 0 < t ∧ 0 ≤ ov ∧ ov ≤ 1

instance (mins maxs t ov : ℚ) : Decidable (validCommon mins maxs t ov) := by
  unfold validCommon; infer_instance

def validLog (p : LogParams) : Prop :=
  validCommon p.min_sigma p.max_sigma p.threshold p.overlap ∧ 1 ≤ p.num_sigma

def validDog (p : DogParams) : Prop :=
  validCommon p.min_sigma p.max_sigma p.threshold p.overlap

def validDoh (p : DohParams) : Prop :=
  validCommon p.min_sigma p.max_sigma p.threshold p.overlap ∧ 1 ≤ p.num_sigma

instance (p : LogParams) : Decidable (validLog p) := by unfold validLog; infer_instance

instance (p : DogParams) : Decidable (validDog p) := by unfold validDog; infer_instance

instance (p : DohParams) : Decidable (validDoh p) := by unfold validDoh; infer_instance

/-- LoG/DoG report radius `sigma * sqrt 2`. -/
noncomputable def radLog : ℚ → ℝ := fun s => Real.sqrt 2 * (s : ℝ)

/-- DoH reports radius `sigma`. -/
noncomputable def radDoh : ℚ → ℝ := fun s => (s : ℝ)

/-- Convert a pruned candidate to an output blob. -/
noncomputable def toBlob (rad : ℚ → ℝ) (c : Cand) : Blob :=
  { row := (c.row : ℚ), col := (c.col : ℚ), radius := rad c.sigma, pol := c.pol }

/-- Candidates of one response cube: local extrema above threshold,
tagged with their sigma, response and polarity. -/
def cubeCandidates (sigmas : List ℚ) (cube : Cube) (polAt : ℕ → ℕ → ℕ → Polarity)
    (t : ℚ) : List Cand :=
  (localExtrema cube t).map (mkCand sigmas cube polAt)

/-- LoG candidates: local extrema of the LoG cube above threshold,
restricted to negative (bright-on-dark) responses. -/
def logCandidates (img : Image) (p : LogParams) : List Cand :=
  (cubeCandidates (sigmaListLin p.min_sigma p.max_sigma p.num_sigma)
      (logCube img (sigmaListLin p.min_sigma p.max_sigma p.num_sigma))
      (fun _ _ _ => Polarity.bright) p.threshold).filter
    fun c => decide (c.resp < 0)

/-- DoG candidates: local extrema of the DoG cube above threshold,
restricted to negative (bright-on-dark) responses. -/
def dogCandidates (img : Image) (p : DogParams) : List Cand :=
  (cubeCandidates (dogSigmaList p.min_sigma p.sigma_ratio p.max_sigma)
      (dogCube img (dogSigmaList p.min_sigma p.sigma_ratio p.max_sigma))
      (fun _ _ _ => Polarity.bright) p.threshold).filter
    fun c => decide (c.resp < 0)

/-- DoH candidates: local extrema of the DoH cube above threshold, with
polarity given by the sign of the Hessian trace at the maximum. -/
def dohCandidates (img : Image) (p : DohParams) : List Cand :=
  cubeCandidates (sigmaListLin p.min_sigma p.max_sigma p.num_sigma)
    (dohCube img (sigmaListLin p.min_sigma p.max_sigma p.num_sigma))
    (fun k r c =>
      if dohTrace img ((sigmaListLin p.min_sigma p.max_sigma p.num_sigma).getD k 0) r c < 0
      then Polarity.bright else Polarity.dark) p.threshold

noncomputable def logPruned (img : Image) (p : LogParams) : List Cand :=
  pruneBlobs radLog p.overlap (logCandidates img p)

noncomputable def dogPruned (img : Image) (p : DogParams) : List Cand :=
  pruneBlobs radLog p.overlap (dogCandidates img p)

noncomputable def dohPruned (img : Image) (p : DohParams) : List Cand :=
  pruneBlobs radDoh p.overlap (dohCandidates img p)

/-- Optional DoH polarity filter. -/
def polFilter (q : Option Polarity) (l : List Cand) : List Cand :=
  match q with
  | none => l
  | some q => l.filter fun c => decide (c.pol = q)

/-- LoG entry point: validate, then compose scale space, response cube,
extrema detection and pruning. -/
noncomputable def detect_log (img : Image) (p : LogParams) : Except BlobError (List Blob) :=
  if validLog p then
    if img.H = 0 ∨ img.W = 0 then .error .EmptyImage
    else .ok ((logPruned img p).map (toBlob radLog))
  else .error .InvalidParameter

/-- DoG entry point. -/
noncomputable def detect_dog (img : Image) (p : DogParams) : Except BlobError (List Blob) :=
  if validDog p then
    if img.H = 0 ∨ img.W = 0 then .error .EmptyImage
    else .ok ((dogPruned img p).map (toBlob radLog))
  else .error .InvalidParameter

/-- DoH entry point. -/
noncomputable def detect_doh (img : Image) (p : DohParams) : Except BlobError (List Blob) :=
  if validDoh p then
    if img.H = 0 ∨ img.W = 0 then .error .EmptyImage
    else .ok ((polFilter p.detect_polarity (dohPruned img p)).map (toBlob radDoh))
  else .error .InvalidParameter

/-- Public entry point as called in `plot_blob.py`; parameters not
supplied by the caller take their defaults. -/
noncomputable def blob_log (img : Image) (p : LogParams := {}) : Except BlobError (List Blob) :=
  detect_log img p

/-- Public entry point as called in `plot_blob.py`. -/
noncomputable def blob_dog (img : Image) (p : DogParams := {}) : Except BlobError (List Blob) :=
  detect_dog img p

/-- Public entry point as called in `plot_blob.py`. -/
noncomputable def blob_doh (img : Image) (p : DohParams := {}) : Except BlobError (List Blob) :=
  detect_doh img p

/-- The blob list of a successful result (empty on failure). -/
def blobsOf : Except BlobError (List Blob) → List Blob
  | .ok l => l
  | .error _ => []

/-! ## Stable sort versus filter -/

section SortFilter

variable {α : Type} (r : α → α → Prop) [DecidableRel r]

theorem orderedInsert_eq_cons (a : α) (M : List α) (h : ∀ y ∈ M, r a y) :
    M.orderedInsert r a = a :: M := by
  cases M with
  | nil => rfl
  | cons b bs => simp [List.orderedInsert, h b (List.mem_cons_self b bs)]

theorem filter_orderedInsert_neg (p : α → Bool) (a : α) (M : List α) (ha : p a = false) :
    (M.orderedInsert r a).filter p = M.filter p := by
  induction M with
  | nil => simp [List.orderedInsert, ha]
  | cons b bs ih =>
    by_cases h : r a b
    · simp [List.orderedInsert, h, List.filter_cons, ha]
    · simp only [List.orderedInsert, if_neg h, List.filter_cons]
      cases hb : p b <;> simp [hb, ih]

theorem filter_orderedInsert_pos [IsTrans α r] [IsTotal α r] (p : α → Bool) (a : α)
    (M : List α) (hM : M.Sorted r) (ha : p a = true) :
    (M.orderedInsert r a).filter p = (M.filter p).orderedInsert r a := by
  induction M with
  | nil => simp [List.orderedInsert, ha]
  | cons b bs ih =>
    have hbs : bs.Sorted r := hM.of_cons
    by_cases h : r a b
    · by_cases hb : p b
      · simp [List.orderedInsert, h, List.filter_cons, ha, hb]
      · have hcons : ∀ y ∈ bs.filter p, r a y := by
          intro y hy
          exact Trans.trans h (List.rel_of_sorted_cons hM y (List.mem_of_mem_filter hy))
        simp only [List.orderedInsert, if_pos h, List.filter_cons, ha, if_true,
          eq_self_iff_true, hb, Bool.false_eq_true, if_false,
          orderedInsert_eq_cons r a _ hcons]
    · have h2 : r b a := (IsTotal.total (r := r) a b).resolve_left h
      by_cases hb : p b
      · simp [List.orderedInsert, h, List.filter_cons, hb, ih hbs]
      · simp [List.orderedInsert, h, List.filter_cons, hb, ih hbs]

theorem filter_insertionSort [IsTrans α r] [IsTotal α r] (p : α → Bool) (l : List α) :
    (l.insertionSort r).filter p = (l.filter p).insertionSort r := by
  induction l with
  | nil => rfl
  | cons a as ih =>
    by_cases ha : p a
    · rw [List.insertionSort,
        filter_orderedInsert_pos r p a _ (List.sorted_insertionSort r as) ha, ih,
        List.filter_cons, if_pos ha, List.insertionSort]
    · rw [List.insertionSort,
        filter_orderedInsert_neg r p a _ (by simpa using ha), ih,
        List.filter_cons, if_neg (by simpa using ha)]

theorem sorted_filter_append (p : α → Bool) (l : List α) (hl : l.Sorted r)
    (hmono : ∀ a b, r a b → p b = true → p a = true) :
    l = l.filter p ++ l.filter (fun x => !p x) := by
  induction l with
  | nil => rfl
  | cons a as ih =>
    have has : as.Sorted r := hl.of_cons
    by_cases ha : p a
    · have := ih has
      simp only [List.filter_cons, ha, if_true, Bool.not_true, Bool.false_eq_true, if_false]
      exact congrArg (a :: ·) this
    · have hnil : as.filter p = [] := by
        rw [List.filter_eq_nil_iff]
        intro b hb hpb
        exact ha (hmono a b (List.rel_of_sorted_cons hl b hb) hpb)
      have h1 : (a :: as).filter p = [] := by
        rw [List.filter_eq_nil_iff]
        intro b hb hpb
        rcases List.mem_cons.mp hb with rfl | hb2
        · exact ha hpb
        · exact (List.filter_eq_nil_iff.mp hnil) b hb2 hpb
      have h2 := ih has
      rw [hnil, List.nil_append] at h2
      simp only [h1, List.nil_append, List.filter_cons, ha, Bool.not_false,
        Bool.false_eq_true, if_false, if_true]
      exact congrArg (a :: ·) h2

end SortFilter

/-! ## Pruner lemmas -/

theorem greedyAux_nil (rad : ℚ → ℝ) (ov : ℚ) (kept : List Cand) :
    greedyAux rad ov kept [] = [] := by
  rw [greedyAux]

open Classical in
theorem greedyAux_cons (rad : ℚ → ℝ) (ov : ℚ) (kept : List Cand) (c : Cand) (cs : List Cand) :
    greedyAux rad ov kept (c :: cs) =
      if ∀ k ∈ kept, compat rad ov k c then c :: greedyAux rad ov (kept ++ [c]) cs
      else greedyAux rad ov kept cs := by
  rw [greedyAux]

theorem greedyAux_sublist (rad : ℚ → ℝ) (ov : ℚ) :
    ∀ (l kept : List Cand), greedyAux rad ov kept l <+ l := by
  intro l
  induction l with
  | nil => intro kept; rw [greedyAux_nil]
  | cons c cs ih =>
    intro kept
    rw [greedyAux_cons]
    by_cases h : ∀ k ∈ kept, compat rad ov k c
    · rw [if_pos h]; exact (ih _).cons₂ c
    · rw [if_neg h]; exact (ih kept).cons c

theorem greedyAux_kept_compat (rad : ℚ → ℝ) (ov : ℚ) :
    ∀ (l kept : List Cand), ∀ c ∈ greedyAux rad ov kept l, ∀ k ∈ kept, compat rad ov k c := by
  intro l
  induction l with
  | nil => intro kept c hc; rw [greedyAux_nil] at hc; cases hc
  | cons d ds ih =>
    intro kept c hc k hk
    rw [greedyAux_cons] at hc
    by_cases h : ∀ k ∈ kept, compat rad ov k d
    · rw [if_pos h] at hc
      rcases List.mem_cons.mp hc with rfl | hc2
      · exact h k hk
      · exact ih (kept ++ [d]) c hc2 k (List.mem_append_left _ hk)
    · rw [if_neg h] at hc
      exact ih kept c hc k hk

theorem greedyAux_pairwise (rad : ℚ → ℝ) (ov : ℚ) :
    ∀ (l kept : List Cand), (greedyAux rad ov kept l).Pairwise (compat rad ov) := by
  intro l
  induction l with
  | nil => intro kept; rw [greedyAux_nil]; exact List.Pairwise.nil
  | cons d ds ih =>
    intro kept
    rw [greedyAux_cons]
    by_cases h : ∀ k ∈ kept, compat rad ov k d
    · rw [if_pos h]
      refine List.Pairwise.cons ?_ (ih (kept ++ [d]))
      intro c hc
      exact greedyAux_kept_compat rad ov ds (kept ++ [d]) c hc d
        (List.mem_append_right _ (List.mem_singleton_self d))
    · rw [if_neg h]; exact ih kept

theorem greedyAux_append (rad : ℚ → ℝ) (ov : ℚ) :
    ∀ (l1 l2 kept : List Cand),
      greedyAux rad ov kept (l1 ++ l2) =
        greedyAux rad ov kept l1 ++
          greedyAux rad ov (kept ++ greedyAux rad ov kept l1) l2 := by
  intro l1
  induction l1 with
  | nil => intro l2 kept; simp [greedyAux_nil]
  | cons d ds ih =>
    intro l2 kept
    rw [List.cons_append, greedyAux_cons, greedyAux_cons]
    by_cases h : ∀ k ∈ kept, compat rad ov k d
    · rw [if_pos h, if_pos h, ih l2 (kept ++ [d])]
      simp [List.append_assoc]
    · rw [if_neg h, if_neg h]
      exact ih l2 kept

theorem greedyAux_dropped (rad : ℚ → ℝ) (ov : ℚ) :
    ∀ (l kept : List Cand) (c : Cand), c ∈ l → c ∉ greedyAux rad ov kept l →
      ∃ k ∈ kept ++ greedyAux rad ov kept l, ¬compat rad ov k c := by
  intro l
  induction l with
  | nil => intro kept c hc _; cases hc
  | cons d ds ih =>
    intro kept c hc hnot
    rw [greedyAux_cons] at hnot ⊢
    by_cases h : ∀ k ∈ kept, compat rad ov k d
    · rw [if_pos h] at hnot ⊢
      rcases List.mem_cons.mp hc with rfl | hc2
      · exact absurd (List.mem_cons_self c _) hnot
      · have hnot2 : c ∉ greedyAux rad ov (kept ++ [d]) ds := fun hmem =>
          hnot (List.mem_cons_of_mem d hmem)
        obtain ⟨k, hk, hkc⟩ := ih (kept ++ [d]) c hc2 hnot2
        refine ⟨k, ?_, hkc⟩
        simpa using hk
    · rw [if_neg h] at hnot ⊢
      rcases List.mem_cons.mp hc with rfl | hc2
      · push_neg at h
        obtain ⟨k, hk, hkc⟩ := h
        exact ⟨k, List.mem_append_left _ hk, hkc⟩
      · exact ih kept c hc2 hnot

theorem sortCands_sorted (l : List Cand) : (sortCands l).Sorted candLE :=
  List.sorted_insertionSort candLE l

theorem sortCands_perm (l : List Cand) : (sortCands l).Perm l :=
  List.perm_insertionSort candLE l

theorem mem_sortCands {l : List Cand} {c : Cand} : c ∈ sortCands l ↔ c ∈ l :=
  List.mem_insertionSort candLE

theorem pruneBlobs_sublist (rad : ℚ → ℝ) (ov : ℚ) (l : List Cand) :
    List.Sublist (pruneBlobs rad ov l) (sortCands l) := by
  unfold pruneBlobs
  split_ifs with h
  · exact List.Sublist.refl _
  · exact greedyAux_sublist rad ov (sortCands l) []

theorem pruneBlobs_subset (rad : ℚ → ℝ) (ov : ℚ) (l : List Cand) :
    ∀ c ∈ pruneBlobs rad ov l, c ∈ l := by
  intro c hc
  exact mem_sortCands.mp ((pruneBlobs_sublist rad ov l).subset hc)

theorem pruneBlobs_sorted (rad : ℚ → ℝ) (ov : ℚ) (l : List Cand) :
    (pruneBlobs rad ov l).Sorted candLE :=
  List.Pairwise.sublist (pruneBlobs_sublist rad ov l) (sortCands_sorted l)

theorem pruneBlobs_pairwise (rad : ℚ → ℝ) (ov : ℚ) (l : List Cand) (h : ov ≠ 1) :
    (pruneBlobs rad ov l).Pairwise (compat rad ov) := by
  unfold pruneBlobs
  rw [if_neg h]
  exact greedyAux_pairwise rad ov (sortCands l) []

theorem pruneBlobs_overlap_one (rad : ℚ → ℝ) (l : List Cand) :
    pruneBlobs rad 1 l = sortCands l := by
  unfold pruneBlobs
  rw [if_pos rfl]

theorem pruneBlobs_dropped (rad : ℚ → ℝ) (ov : ℚ) (l : List Cand) (c : Cand)
    (hc : c ∈ sortCands l) (hnot : c ∉ pruneBlobs rad ov l) :
    ∃ k ∈ pruneBlobs rad ov l, ¬compat rad ov k c := by
  by_cases h : ov = 1
  · subst h
    rw [pruneBlobs_overlap_one] at hnot
    exact absurd hc hnot
  · unfold pruneBlobs at hnot ⊢
    rw [if_neg h] at hnot ⊢
    simpa using greedyAux_dropped rad ov (sortCands l) [] c hc hnot

theorem pruneBlobs_nil (rad : ℚ → ℝ) (ov : ℚ) : pruneBlobs rad ov [] = [] := by
  unfold pruneBlobs
  split_ifs with h
  · rfl
  · rw [show sortCands [] = [] from rfl, greedyAux_nil]

/-- Restricting the candidate list by an upward-closed predicate (with
respect to the processing order) can only shrink the pruner's output. -/
theorem pruneBlobs_filter_sublist (rad : ℚ → ℝ) (ov : ℚ) (l : List Cand) (p : Cand → Bool)
    (hp : ∀ a b, candLE a b → p b = true → p a = true) :
    List.Sublist (pruneBlobs rad ov (l.filter p)) (pruneBlobs rad ov l) := by
  have hsort : sortCands (l.filter p) = (sortCands l).filter p :=
    (filter_insertionSort candLE p l).symm
  unfold pruneBlobs
  split_ifs with h
  · rw [hsort]
    exact List.filter_sublist _
  · rw [hsort]
    conv_rhs =>
      rw [sorted_filter_append candLE p (sortCands l) (sortCands_sorted l) hp,
        greedyAux_append]
    exact List.sublist_append_left _ _

/-! ## Threshold monotonicity at the candidate level -/

theorem isPeakB_mono {t1 t2 : ℚ} (h : t1 ≤ t2) (cube : Cube) (s r c : ℕ) :
    isPeakB cube t2 s r c = (decide (t2 < |cube.val s r c|) && isPeakB cube t1 s r c) := by
  unfold isPeakB
  by_cases h2 : t2 < |cube.val s r c|
  · have h1 : t1 < |cube.val s r c| := lt_of_le_of_lt h h2
    simp [h1, h2]
  · simp [h2]

theorem localExtrema_mono {t1 t2 : ℚ} (h : t1 ≤ t2) (cube : Cube) :
    localExtrema cube t2 =
      (localExtrema cube t1).filter fun i => decide (t2 < |cube.val i.1 i.2.1 i.2.2|) := by
  unfold localExtrema
  rw [List.filter_filter]
  exact List.filter_congr fun i _ => isPeakB_mono h cube i.1 i.2.1 i.2.2

theorem cubeCandidates_mono (sigmas : List ℚ) (cube : Cube)
    (polAt : ℕ → ℕ → ℕ → Polarity) {t1 t2 : ℚ} (h : t1 ≤ t2) :
    cubeCandidates sigmas cube polAt t2 =
      (cubeCandidates sigmas cube polAt t1).filter fun c => decide (t2 < |c.resp|) := by
  unfold cubeCandidates
  rw [localExtrema_mono h, List.filter_map]
  exact congrArg _ (List.filter_congr fun i _ => rfl)

theorem logCandidates_mono (img : Image) (p : LogParams) {t1 t2 : ℚ} (h : t1 ≤ t2) :
    logCandidates img { p with threshold := t2 } =
      (logCandidates img { p with threshold := t1 }).filter
        fun c => decide (t2 < |c.resp|) := by
  unfold logCandidates
  dsimp only
  rw [cubeCandidates_mono _ _ _ h, List.filter_comm]

theorem dogCandidates_mono (img : Image) (p : DogParams) {t1 t2 : ℚ} (h : t1 ≤ t2) :
    dogCandidates img { p with threshold := t2 } =
      (dogCandidates img { p with threshold := t1 }).filter
        fun c => decide (t2 < |c.resp|) := by
  unfold dogCandidates
  dsimp only
  rw [cubeCandidates_mono _ _ _ h, List.filter_comm]

theorem dohCandidates_mono (img : Image) (p : DohParams) {t1 t2 : ℚ} (h : t1 ≤ t2) :
    dohCandidates img { p with threshold := t2 } =
      (dohCandidates img { p with threshold := t1 }).filter
        fun c => decide (t2 < |c.resp|) := by
  unfold dohCandidates
  dsimp only
  rw [cubeCandidates_mono _ _ _ h]

/-- The threshold filter is upward closed along the processing order. -/
theorem respFilter_mono (t2 : ℚ) :
    ∀ a b : Cand, candLE a b → decide (t2 < |b.resp|) = true →
      decide (t2 < |a.resp|) = true := by
  intro a b hab hb
  rw [decide_eq_true_eq] at hb ⊢
  rcases hab with h1 | ⟨h1, _⟩
  · exact hb.trans h1
  · exact h1 ▸ hb

/-! ## Flat (constant) images -/

/-- The image is constant with value `v`. -/
def IsFlat (img : Image) (v : ℚ) : Prop := ∀ r c, img.pix r c = v

theorem pixC_flat {img : Image} {v : ℚ} (hf : IsFlat img v) (r c : ℤ) :
    img.pixC r c = v := hf _ _

theorem expPoly_pos {x : ℚ} (hx : 0 ≤ x) : 0 < expPoly x := by
  unfold expPoly
  apply Finset.sum_pos'
  · intro i _
    positivity
  · exact ⟨0, Finset.mem_range.mpr (by norm_num), by norm_num⟩

theorem expNeg_pos {u : ℚ} (hu : 0 ≤ u) : 0 < expNeg u := by
  unfold expNeg
  exact one_div_pos.mpr (expPoly_pos hu)

theorem gaussWRaw_pos (s : ℚ) (i : ℤ) : 0 < gaussWRaw s i := by
  unfold gaussWRaw
  exact expNeg_pos (by positivity)

theorem gaussWSum_pos (s : ℚ) : 0 < gaussWSum s := by
  unfold gaussWSum
  apply Finset.sum_pos
  · intro i _
    exact gaussWRaw_pos s _
  · exact ⟨0, Finset.mem_range.mpr (by omega)⟩

theorem gaussW_sum_one (s : ℚ) :
    ∑ k ∈ Finset.range (2 * kernRadius s + 1), gaussW s ((k : ℤ) - (kernRadius s : ℤ)) = 1 := by
  unfold gaussW
  rw [← Finset.sum_div]
  exact div_self (ne_of_gt (gaussWSum_pos s))

theorem smoothH_flat {img : Image} {v : ℚ} (hf : IsFlat img v) (s : ℚ) :
    IsFlat (smoothH s img) v := by
  intro r c
  unfold smoothH
  dsimp only
  calc
    ∑ k ∈ Finset.range (2 * kernRadius s + 1),
        gaussW s ((k : ℤ) - (kernRadius s : ℤ)) *
          img.pixC (r : ℤ) ((c : ℤ) + ((k : ℤ) - (kernRadius s : ℤ))) =
        ∑ k ∈ Finset.range (2 * kernRadius s + 1),
          gaussW s ((k : ℤ) - (kernRadius s : ℤ)) * v :=
      Finset.sum_congr rfl fun k _ => by rw [pixC_flat hf]
    _ = (∑ k ∈ Finset.range (2 * kernRadius s + 1),
          gaussW s ((k : ℤ) - (kernRadius s : ℤ))) * v := (Finset.sum_mul _ _ _).symm
    _ = v := by rw [gaussW_sum_one, one_mul]

theorem smoothV_flat {img : Image} {v : ℚ} (hf : IsFlat img v) (s : ℚ) :
    IsFlat (smoothV s img) v := by
  intro r c
  unfold smoothV
  dsimp only
  calc
    ∑ k ∈ Finset.range (2 * kernRadius s + 1),
        gaussW s ((k : ℤ) - (kernRadius s : ℤ)) *
          img.pixC ((r : ℤ) + ((k : ℤ) - (kernRadius s : ℤ))) (c : ℤ) =
        ∑ k ∈ Finset.range (2 * kernRadius s + 1),
          gaussW s ((k : ℤ) - (kernRadius s : ℤ)) * v :=
      Finset.sum_congr rfl fun k _ => by rw [pixC_flat hf]
    _ = (∑ k ∈ Finset.range (2 * kernRadius s + 1),
          gaussW s ((k : ℤ) - (kernRadius s : ℤ))) * v := (Finset.sum_mul _ _ _).symm
    _ = v := by rw [gaussW_sum_one, one_mul]

theorem gaussSmooth_flat {img : Image} {v : ℚ} (hf : IsFlat img v) (s : ℚ) :
    IsFlat (gaussSmooth s img) v :=
  smoothV_flat (smoothH_flat hf s) s

theorem laplacian_flat {img : Image} {v : ℚ} (hf : IsFlat img v) (r c : ℕ) :
    laplacian img r c = 0 := by
  unfold laplacian Image.pixC
  rw [hf, hf, hf, hf, hf]
  ring

theorem logCube_flat {img : Image} {v : ℚ} (hf : IsFlat img v) (sigmas : List ℚ) :
    ∀ k r c, (logCube img sigmas).val k r c = 0 := by
  intro k r c
  unfold logCube
  dsimp only
  rw [laplacian_flat (gaussSmooth_flat hf _)]
  ring

theorem dogCube_flat {img : Image} {v : ℚ} (hf : IsFlat img v) (sigmas : List ℚ) :
    ∀ k r c, (dogCube img sigmas).val k r c = 0 := by
  intro k r c
  unfold dogCube
  dsimp only
  rw [gaussSmooth_flat hf _ r c, gaussSmooth_flat hf _ r c, sub_self, zero_div]

theorem integralImage_flat {img : Image} {v : ℚ} (hf : IsFlat img v) (r c : ℕ) :
    integralImage img r c = ((min r img.H : ℕ) : ℚ) * ((min c img.W : ℕ) : ℚ) * v := by
  unfold integralImage
  calc
    ∑ i ∈ Finset.range (min r img.H), ∑ j ∈ Finset.range (min c img.W), img.pix i j =
        ∑ _i ∈ Finset.range (min r img.H), ∑ _j ∈ Finset.range (min c img.W), v :=
      Finset.sum_congr rfl fun i _ => Finset.sum_congr rfl fun j _ => hf i j
    _ = ((min r img.H : ℕ) : ℚ) * ((min c img.W : ℕ) : ℚ) * v := by
      simp [Finset.sum_const, Finset.card_range, nsmul_eq_mul]
      ring

theorem boxSum_flat {img : Image} {v : ℚ} (hf : IsFlat img v) {r1 c1 r2 c2 : ℕ}
    (hr12 : r1 ≤ r2) (hc12 : c1 ≤ c2) (hr2 : r2 ≤ img.H) (hc2 : c2 ≤ img.W) :
    boxSum img r1 c1 r2 c2 = v * ((r2 : ℚ) - (r1 : ℚ)) * ((c2 : ℚ) - (c1 : ℚ)) := by
  unfold boxSum
  rw [integralImage_flat hf, integralImage_flat hf, integralImage_flat hf,
    integralImage_flat hf, min_eq_left hr2, min_eq_left hc2,
    min_eq_left (hr12.trans hr2), min_eq_left (hc12.trans hc2)]
  ring

theorem dohDxx_flat {img : Image} {v : ℚ} (hf : IsFlat img v) {h r c : ℕ}
    (hfit : dohFits img h r c) : dohDxx img h r c = 0 := by
  obtain ⟨h1, h2, h3, h4⟩ := hfit
  unfold dohDxx
  rw [boxSum_flat hf (by omega) (by omega) (by omega) (by omega),
    boxSum_flat hf (by omega) (by omega) (by omega) (by omega),
    boxSum_flat hf (by omega) (by omega) (by omega) (by omega),
    Nat.cast_sub (show h ≤ r by omega), Nat.cast_sub (show 3 * h + 1 ≤ c by omega),
    Nat.cast_sub (show h ≤ c by omega)]
  push_cast
  ring

theorem dohDyy_flat {img : Image} {v : ℚ} (hf : IsFlat img v) {h r c : ℕ}
    (hfit : dohFits img h r c) : dohDyy img h r c = 0 := by
  obtain ⟨h1, h2, h3, h4⟩ := hfit
  unfold dohDyy
  rw [boxSum_flat hf (by omega) (by omega) (by omega) (by omega),
    boxSum_flat hf (by omega) (by omega) (by omega) (by omega),
    boxSum_flat hf (by omega) (by omega) (by omega) (by omega),
    Nat.cast_sub (show h ≤ r by omega), Nat.cast_sub (show 3 * h + 1 ≤ r by omega),
    Nat.cast_sub (show h ≤ c by omega)]
  push_cast
  ring

theorem dohDxy_flat {img : Image} {v : ℚ} (hf : IsFlat img v) {h r c : ℕ}
    (hfit : dohFits img h r c) : dohDxy img h r c = 0 := by
  obtain ⟨h1, h2, h3, h4⟩ := hfit
  unfold dohDxy
  rw [boxSum_flat hf (by omega) (by omega) (by omega) (by omega),
    boxSum_flat hf (by omega) (by omega) (by omega) (by omega),
    boxSum_flat hf (by omega) (by omega) (by omega) (by omega),
    boxSum_flat hf (by omega) (by omega) (by omega) (by omega),
    Nat.cast_sub (show h ≤ r by omega), Nat.cast_sub (show h ≤ c by omega)]
  push_cast
  ring

theorem dohDet_flat {img : Image} {v : ℚ} (hf : IsFlat img v) (s : ℚ) (r c : ℕ) :
    dohDet img s r c = 0 := by
  unfold dohDet
  split_ifs with hfit
  · rw [dohDxx_flat hf hfit, dohDyy_flat hf hfit, dohDxy_flat hf hfit]
    norm_num
  · rfl

theorem dohCube_flat {img : Image} {v : ℚ} (hf : IsFlat img v) (sigmas : List ℚ) :
    ∀ k r c, (dohCube img sigmas).val k r c = 0 := by
  intro k r c
  unfold dohCube
  dsimp only
  exact dohDet_flat hf _ r c

theorem localExtrema_zero {cube : Cube} (hz : ∀ s r c, cube.val s r c = 0) {t : ℚ}
    (ht : 0 < t) : localExtrema cube t = [] := by
  unfold localExtrema
  rw [List.filter_eq_nil_iff]
  intro i _
  unfold isPeakB
  simp only [hz, abs_zero, Bool.and_eq_true, decide_eq_true_eq, not_and]
  intro hcontra
  exact absurd hcontra (not_lt.mpr ht.le)

theorem logCandidates_flat {img : Image} {v : ℚ} (hf : IsFlat img v) (p : LogParams)
    (ht : 0 < p.threshold) : logCandidates img p = [] := by
  unfold logCandidates cubeCandidates
  rw [localExtrema_zero (logCube_flat hf _) ht]
  rfl

theorem dogCandidates_flat {img : Image} {v : ℚ} (hf : IsFlat img v) (p : DogParams)
    (ht : 0 < p.threshold) : dogCandidates img p = [] := by
  unfold dogCandidates cubeCandidates
  rw [localExtrema_zero (dogCube_flat hf _) ht]
  rfl

theorem dohCandidates_flat {img : Image} {v : ℚ} (hf : IsFlat img v) (p : DohParams)
    (ht : 0 < p.threshold) : dohCandidates img p = [] := by
  unfold dohCandidates cubeCandidates
  rw [localExtrema_zero (dohCube_flat hf _) ht]
  rfl

theorem polFilter_nil (q : Option Polarity) : polFilter q [] = [] := by
  cases q <;> rfl

/-! ## Validation lemmas -/

theorem not_validLog_iff (p : LogParams) :
    ¬validLog p ↔
      p.min_sigma ≤ 0 ∨ p.max_sigma ≤ 0 ∨ p.max_sigma < p.min_sigma ∨
        p.threshold ≤ 0 ∨ p.overlap < 0 ∨ 1 < p.overlap ∨ p.num_sigma < 1 := by
  simp only [validLog, validCommon, not_and_or, not_lt, not_le]
  tauto

theorem not_validDog_iff (p : DogParams) :
    ¬validDog p ↔
      p.min_sigma ≤ 0 ∨ p.max_sigma ≤ 0 ∨ p.max_sigma < p.min_sigma ∨
        p.threshold ≤ 0 ∨ p.overlap < 0 ∨ 1 < p.overlap := by
  simp only [validDog, validCommon, not_and_or, not_lt, not_le]
  try tauto

theorem not_validDoh_iff (p : DohParams) :
    ¬validDoh p ↔
      p.min_sigma ≤ 0 ∨ p.max_sigma ≤ 0 ∨ p.max_sigma < p.min_sigma ∨
        p.threshold ≤ 0 ∨ p.overlap < 0 ∨ 1 < p.overlap ∨ p.num_sigma < 1 := by
  simp only [validDoh, validCommon, not_and_or, not_lt, not_le]
  tauto

theorem detect_log_invalid_iff (img : Image) (p : LogParams) :
    detect_log img p = .error .InvalidParameter ↔ ¬validLog p := by
  unfold detect_log
  split_ifs <;> simp [*]

theorem detect_dog_invalid_iff (img : Image) (p : DogParams) :
    detect_dog img p = .error .InvalidParameter ↔ ¬validDog p := by
  unfold detect_dog
  split_ifs <;> simp [*]

theorem detect_doh_invalid_iff (img : Image) (p : DohParams) :
    detect_doh img p = .error .InvalidParameter ↔ ¬validDoh p := by
  unfold detect_doh
  split_ifs <;> simp [*]

theorem detect_log_empty_iff (img : Image) (p : LogParams) :
    detect_log img p = .error .EmptyImage ↔ validLog p ∧ (img.H = 0 ∨ img.W = 0) := by
  unfold detect_log
  split_ifs <;> simp [*]

theorem detect_dog_empty_iff (img : Image) (p : DogParams) :
    detect_dog img p = .error .EmptyImage ↔ validDog p ∧ (img.H = 0 ∨ img.W = 0) := by
  unfold detect_dog
  split_ifs <;> simp [*]

theorem detect_doh_empty_iff (img : Image) (p : DohParams) :
    detect_doh img p = .error .EmptyImage ↔ validDoh p ∧ (img.H = 0 ∨ img.W = 0) := by
  unfold detect_doh
  split_ifs <;> simp [*]

theorem detect_log_ok_iff (img : Image) (p : LogParams) :
    (∃ bs, detect_log img p = .ok bs) ↔ validLog p ∧ ¬(img.H = 0 ∨ img.W = 0) := by
  unfold detect_log
  split_ifs <;> simp [*]

theorem detect_dog_ok_iff (img : Image) (p : DogParams) :
    (∃ bs, detect_dog img p = .ok bs) ↔ validDog p ∧ ¬(img.H = 0 ∨ img.W = 0) := by
  unfold detect_dog
  split_ifs <;> simp [*]

theorem detect_doh_ok_iff (img : Image) (p : DohParams) :
    (∃ bs, detect_doh img p = .ok bs) ↔ validDoh p ∧ ¬(img.H = 0 ∨ img.W = 0) := by
  unfold detect_doh
  split_ifs <;> simp [*]

/-! ## Result shape lemmas -/

theorem blobsOf_detect_log (img : Image) (p : LogParams) :
    blobsOf (detect_log img p) = [] ∨
      blobsOf (detect_log img p) = (logPruned img p).map (toBlob radLog) := by
  unfold detect_log
  split_ifs <;> simp [blobsOf]

theorem blobsOf_detect_dog (img : Image) (p : DogParams) :
    blobsOf (detect_dog img p) = [] ∨
      blobsOf (detect_dog img p) = (dogPruned img p).map (toBlob radLog) := by
  unfold detect_dog
  split_ifs <;> simp [blobsOf]

theorem blobsOf_detect_doh (img : Image) (p : DohParams) :
    blobsOf (detect_doh img p) = [] ∨
      blobsOf (detect_doh img p) =
        (polFilter p.detect_polarity (dohPruned img p)).map (toBlob radDoh) := by
  unfold detect_doh
  split_ifs <;> simp [blobsOf]

/-! ## Candidate membership lemmas -/

theorem mem_cubeIndices {cube : Cube} {i : ℕ × ℕ × ℕ} :
    i ∈ cubeIndices cube ↔ i.1 < cube.S ∧ i.2.1 < cube.H ∧ i.2.2 < cube.W := by
  obtain ⟨s, r, c⟩ := i
  unfold cubeIndices
  simp [List.mem_product, List.mem_range]

theorem mem_localExtrema_bounds {cube : Cube} {t : ℚ} {i : ℕ × ℕ × ℕ}
    (hi : i ∈ localExtrema cube t) : i.1 < cube.S ∧ i.2.1 < cube.H ∧ i.2.2 < cube.W :=
  mem_cubeIndices.mp (List.mem_of_mem_filter hi)

theorem mem_cubeCandidates {sigmas : List ℚ} {cube : Cube}
    {polAt : ℕ → ℕ → ℕ → Polarity} {t : ℚ} {c : Cand}
    (hc : c ∈ cubeCandidates sigmas cube polAt t) :
    ∃ i ∈ localExtrema cube t, c = mkCand sigmas cube polAt i := by
  unfold cubeCandidates at hc
  obtain ⟨i, hi, hEq⟩ := List.mem_map.mp hc
  exact ⟨i, hi, hEq.symm⟩

theorem cubeCandidates_sigma_mem {sigmas : List ℚ} {cube : Cube}
    {polAt : ℕ → ℕ → ℕ → Polarity} {t : ℚ} (hS : cube.S ≤ sigmas.length) :
    ∀ c ∈ cubeCandidates sigmas cube polAt t, c.sigma ∈ sigmas := by
  intro c hc
  obtain ⟨i, hi, rfl⟩ := mem_cubeCandidates hc
  have hlen : i.1 < sigmas.length := lt_of_lt_of_le (mem_localExtrema_bounds hi).1 hS
  show (mkCand sigmas cube polAt i).sigma ∈ sigmas
  unfold mkCand
  dsimp only
  rw [List.getD_eq_get sigmas 0 hlen]
  exact List.get_mem sigmas i.1 hlen

/-! ## Symmetry of the overlap fraction -/

theorem overlapFraction_symm (y1 x1 : ℚ) (r1 : ℝ) (y2 x2 : ℚ) (r2 : ℝ) :
    overlapFraction y1 x1 r1 y2 x2 r2 = overlapFraction y2 x2 r2 y1 x1 r1 := by
  unfold overlapFraction
  dsimp only
  rw [show ((y2 - y1 : ℚ) : ℝ) ^ 2 + ((x2 - x1 : ℚ) : ℝ) ^ 2 =
      ((y1 - y2 : ℚ) : ℝ) ^ 2 + ((x1 - x2 : ℚ) : ℝ) ^ 2 by push_cast; ring]
  generalize Real.sqrt (((y1 - y2 : ℚ) : ℝ) ^ 2 + ((x1 - x2 : ℚ) : ℝ) ^ 2) = d
  rw [add_comm r2 r1, abs_sub_comm r2 r1, min_comm r2 r1]
  split_ifs with h1 h2
  · rfl
  · rfl
  · rw [show (-d + r2 + r1) * (d + r2 - r1) * (d - r2 + r1) * (d + r2 + r1) =
        (-d + r1 + r2) * (d + r1 - r2) * (d - r1 + r2) * (d + r1 + r2) by ring]
    ring

theorem polFilter_sublist (q : Option Polarity) (l : List Cand) :
    List.Sublist (polFilter q l) l := by
  cases q with
  | none => exact List.Sublist.refl l
  | some q => exact List.filter_sublist l

theorem polFilter_mono_sublist (q : Option Polarity) {l1 l2 : List Cand}
    (h : List.Sublist l1 l2) : List.Sublist (polFilter q l1) (polFilter q l2) := by
  cases q with
  | none => exact h
  | some q => exact h.filter _

theorem nodup_cubeIndices (cube : Cube) : (cubeIndices cube).Nodup := by
  unfold cubeIndices
  exact (List.nodup_range _).product ((List.nodup_range _).product (List.nodup_range _))

theorem candLE_resp (a b : Cand) (h : candLE a b) : |b.resp| ≤ |a.resp| := by
  rcases h with h1 | ⟨h1, _⟩
  · exact h1.le
  · exact h1.ge

/-! ## Validity is threshold-independent (for positive thresholds) -/

theorem validLog_threshold (p : LogParams) {t1 t2 : ℚ} (h1 : 0 < t1) (h2 : 0 < t2) :
    validLog { p with threshold := t1 } ↔ validLog { p with threshold := t2 } := by
  unfold validLog validCommon
  dsimp only
  constructor
  · rintro ⟨⟨a, b, c, _, e, f⟩, g⟩
    exact ⟨⟨a, b, c, h2, e, f⟩, g⟩
  · rintro ⟨⟨a, b, c, _, e, f⟩, g⟩
    exact ⟨⟨a, b, c, h1, e, f⟩, g⟩

theorem validDog_threshold (p : DogParams) {t1 t2 : ℚ} (h1 : 0 < t1) (h2 : 0 < t2) :
    validDog { p with threshold := t1 } ↔ validDog { p with threshold := t2 } := by
  unfold validDog validCommon
  dsimp only
  constructor
  · rintro ⟨a, b, c, _, e, f⟩
    exact ⟨a, b, c, h2, e, f⟩
  · rintro ⟨a, b, c, _, e, f⟩
    exact ⟨a, b, c, h1, e, f⟩

theorem validDoh_threshold (p : DohParams) {t1 t2 : ℚ} (h1 : 0 < t1) (h2 : 0 < t2) :
    validDoh { p with threshold := t1 } ↔ validDoh { p with threshold := t2 } := by
  unfold validDoh validCommon
  dsimp only
  constructor
  · rintro ⟨⟨a, b, c, _, e, f⟩, g⟩
    exact ⟨⟨a, b, c, h2, e, f⟩, g⟩
  · rintro ⟨⟨a, b, c, _, e, f⟩, g⟩
    exact ⟨⟨a, b, c, h1, e, f⟩, g⟩

/-! ## Per-algorithm count monotonicity -/

theorem detect_log_count_mono (img : Image) (p : LogParams) {t1 t2 : ℚ}
    (h1 : 0 < t1) (h12 : t1 ≤ t2) :
    (blobsOf (detect_log img { p with threshold := t2 })).length ≤
      (blobsOf (detect_log img { p with threshold := t1 })).length := by
  have h2 : 0 < t2 := lt_of_lt_of_le h1 h12
  by_cases hv : validLog { p with threshold := t1 }
  · have hv2 : validLog { p with threshold := t2 } := (validLog_threshold p h1 h2).mp hv
    by_cases he : img.H = 0 ∨ img.W = 0
    · unfold detect_log
      rw [if_pos hv, if_pos hv2, if_pos he, if_pos he]
    · unfold detect_log
      rw [if_pos hv, if_pos hv2, if_neg he, if_neg he]
      simp only [blobsOf, List.length_map]
      unfold logPruned
      rw [logCandidates_mono img p h12]
      exact (pruneBlobs_filter_sublist radLog _ _ _ (respFilter_mono t2)).length_le
  · have hv2 : ¬validLog { p with threshold := t2 } := fun hh =>
      hv ((validLog_threshold p h1 h2).mpr hh)
    unfold detect_log
    rw [if_neg hv, if_neg hv2]

theorem detect_dog_count_mono (img : Image) (p : DogParams) {t1 t2 : ℚ}
    (h1 : 0 < t1) (h12 : t1 ≤ t2) :
    (blobsOf (detect_dog img { p with threshold := t2 })).length ≤
      (blobsOf (detect_dog img { p with threshold := t1 })).length := by
  have h2 : 0 < t2 := lt_of_lt_of_le h1 h12
  by_cases hv : validDog { p with threshold := t1 }
  · have hv2 : validDog { p with threshold := t2 } := (validDog_threshold p h1 h2).mp hv
    by_cases he : img.H = 0 ∨ img.W = 0
    · unfold detect_dog
      rw [if_pos hv, if_pos hv2, if_pos he, if_pos he]
    · unfold detect_dog
      rw [if_pos hv, if_pos hv2, if_neg he, if_neg he]
      simp only [blobsOf, List.length_map]
      unfold dogPruned
      rw [dogCandidates_mono img p h12]
      exact (pruneBlobs_filter_sublist radLog _ _ _ (respFilter_mono t2)).length_le
  · have hv2 : ¬validDog { p with threshold := t2 } := fun hh =>
      hv ((validDog_threshold p h1 h2).mpr hh)
    unfold detect_dog
    rw [if_neg hv, if_neg hv2]

theorem detect_doh_count_mono (img : Image) (p : DohParams) {t1 t2 : ℚ}
    (h1 : 0 < t1) (h12 : t1 ≤ t2) :
    (blobsOf (detect_doh img { p with threshold := t2 })).length ≤
      (blobsOf (detect_doh img { p with threshold := t1 })).length := by
  have h2 : 0 < t2 := lt_of_lt_of_le h1 h12
  by_cases hv : validDoh { p with threshold := t1 }
  · have hv2 : validDoh { p with threshold := t2 } := (validDoh_threshold p h1 h2).mp hv
    by_cases he : img.H = 0 ∨ img.W = 0
    · unfold detect_doh
      rw [if_pos hv, if_pos hv2, if_pos he, if_pos he]
    · unfold detect_doh
      rw [if_pos hv, if_pos hv2, if_neg he, if_neg he]
      simp only [blobsOf, List.length_map]
      unfold dohPruned
      rw [dohCandidates_mono img p h12]
      exact (polFilter_mono_sublist _ (pruneBlobs_filter_sublist radDoh _ _ _
        (respFilter_mono t2))).length_le
  · have hv2 : ¬validDoh { p with threshold := t2 } := fun hh =>
      hv ((validDoh_threshold p h1 h2).mpr hh)
    unfold detect_doh
    rw [if_neg hv, if_neg hv2]

/-- Any sublist of a pruner output (with pruning enabled) is pairwise
below the overlap bound after conversion to blobs. -/
theorem pairwise_overlap_of_pruned (rad : ℚ → ℝ) (ov : ℚ) (l res : List Cand)
    (hres : List.Sublist res (pruneBlobs rad ov l)) (hov : ov ≠ 1) :
    Set.Pairwise {b | b ∈ res.map (toBlob rad)}
      (fun b1 b2 => b1.pol = b2.pol → blobOverlap b1 b2 ≤ (ov : ℝ)) := by
  have hp : (res.map (toBlob rad)).Pairwise
      (fun b1 b2 => blobOverlap b1 b2 ≤ (ov : ℝ)) := by
    rw [List.pairwise_map]
    exact List.Pairwise.sublist hres (pruneBlobs_pairwise rad ov l hov)
  have hsym : Symmetric (fun b1 b2 : Blob => b1.pol = b2.pol → blobOverlap b1 b2 ≤ (ov : ℝ)) := by
    intro a b hab hpol
    have hba := hab hpol.symm
    unfold blobOverlap at hba ⊢
    rw [overlapFraction_symm]
    exact hba
  have hp2 : (res.map (toBlob rad)).Pairwise
      (fun b1 b2 => b1.pol = b2.pol → blobOverlap b1 b2 ≤ (ov : ℝ)) := by
    refine hp.imp ?_
    intro a b h _
    exact h
  exact hp2.set_pairwise hsym

/-- Every blob built from candidates of a cube carries the radius of one
of the cube's sigmas. -/
theorem forall_radius_of_pruned (rad : ℚ → ℝ) (sigmas : List ℚ) (cube : Cube)
    (polAt : ℕ → ℕ → ℕ → Polarity) (t : ℚ) (hS : cube.S ≤ sigmas.length)
    (res : List Cand) (hres : ∀ c ∈ res, c ∈ cubeCandidates sigmas cube polAt t) :
    (res.map (toBlob rad)).Forall (fun b => ∃ s ∈ sigmas, b.radius = rad s) := by
  rw [List.forall_iff_forall_mem]
  intro b hb
  obtain ⟨c, hc, rfl⟩ := List.mem_map.mp hb
  exact ⟨c.sigma, cubeCandidates_sigma_mem hS c (hres c hc), rfl⟩

/-! ## Flat images give empty results -/

theorem detect_log_flat {img : Image} {v : ℚ} (hf : IsFlat img v) {p : LogParams}
    (hv : validLog p) (hH : img.H ≠ 0) (hW : img.W ≠ 0) :
    detect_log img p = .ok [] := by
  unfold detect_log
  rw [if_pos hv, if_neg (by simp [hH, hW])]
  unfold logPruned
  rw [logCandidates_flat hf p hv.1.2.2.2.1, pruneBlobs_nil]
  rfl

theorem detect_dog_flat {img : Image} {v : ℚ} (hf : IsFlat img v) {p : DogParams}
    (hv : validDog p) (hH : img.H ≠ 0) (hW : img.W ≠ 0) :
    detect_dog img p = .ok [] := by
  unfold detect_dog
  rw [if_pos hv, if_neg (by simp [hH, hW])]
  unfold dogPruned
  rw [dogCandidates_flat hf p hv.2.2.2.1, pruneBlobs_nil]
  rfl

theorem detect_doh_flat {img : Image} {v : ℚ} (hf : IsFlat img v) {p : DohParams}
    (hv : validDoh p) (hH : img.H ≠ 0) (hW : img.W ≠ 0) :
    detect_doh img p = .ok [] := by
  unfold detect_doh
  rw [if_pos hv, if_neg (by simp [hH, hW])]
  unfold dohPruned
  rw [dohCandidates_flat hf p hv.1.2.2.2.1, pruneBlobs_nil, polFilter_nil]
  rfl

/-! ## Claim theorems -/

/-- Claim C1: for every image and parameter set with `overlap < 1`, any
two blobs returned by `detect_log`, `detect_dog` or `detect_doh` that
belong to the same polarity group have disk-overlap-area ratio
(intersection area over the smaller disk's area) at most the configured
`overlap`; with `overlap = 1` the constraint is waived. -/
theorem C1_no_overlap_invariant (img : Image) (pl : LogParams) (pd : DogParams)
    (ph : DohParams) (hl : pl.overlap < 1) (hd : pd.overlap < 1) (hh : ph.overlap < 1) :
    Set.Pairwise {b | b ∈ blobsOf (detect_log img pl)}
        (fun b1 b2 => b1.pol = b2.pol → blobOverlap b1 b2 ≤ (pl.overlap : ℝ)) ∧
      Set.Pairwise {b | b ∈ blobsOf (detect_dog img pd)}
        (fun b1 b2 => b1.pol = b2.pol → blobOverlap b1 b2 ≤ (pd.overlap : ℝ)) ∧
      Set.Pairwise {b | b ∈ blobsOf (detect_doh img ph)}
        (fun b1 b2 => b1.pol = b2.pol → blobOverlap b1 b2 ≤ (ph.overlap : ℝ)) := by
  refine ⟨?_, ?_, ?_⟩
  · rcases blobsOf_detect_log img pl with h | h <;> rw [h]
    · intro x hx
      exact absurd hx (by simp)
    · exact pairwise_overlap_of_pruned radLog pl.overlap (logCandidates img pl) _
        (List.Sublist.refl _) (ne_of_lt hl)
  · rcases blobsOf_detect_dog img pd with h | h <;> rw [h]
    · intro x hx
      exact absurd hx (by simp)
    · exact pairwise_overlap_of_pruned radLog pd.overlap (dogCandidates img pd) _
        (List.Sublist.refl _) (ne_of_lt hd)
  · rcases blobsOf_detect_doh img ph with h | h <;> rw [h]
    · intro x hx
      exact absurd hx (by simp)
    · exact pairwise_overlap_of_pruned radDoh ph.overlap (dohCandidates img ph) _
        (polFilter_sublist _ _) (ne_of_lt hh)

/-- Claim C1 witness. -/
theorem C1_no_overlap_invariant_witness :
    Set.Pairwise {b | b ∈ blobsOf (detect_log ⟨4, 4, fun _ _ => 0⟩ {})}
        (fun b1 b2 => b1.pol = b2.pol →
          blobOverlap b1 b2 ≤ ((({} : LogParams).overlap : ℚ) : ℝ)) ∧
      Set.Pairwise {b | b ∈ blobsOf (detect_dog ⟨4, 4, fun _ _ => 0⟩ {})}
        (fun b1 b2 => b1.pol = b2.pol →
          blobOverlap b1 b2 ≤ ((({} : DogParams).overlap : ℚ) : ℝ)) ∧
      Set.Pairwise {b | b ∈ blobsOf (detect_doh ⟨4, 4, fun _ _ => 0⟩ {})}
        (fun b1 b2 => b1.pol = b2.pol →
          blobOverlap b1 b2 ≤ ((({} : DohParams).overlap : ℚ) : ℝ)) :=
  C1_no_overlap_invariant ⟨4, 4, fun _ _ => 0⟩ {} {} {} (by norm_num) (by norm_num)
    (by norm_num)

/-- Claim C2: every returned blob's third component is its radius, equal
to `sigma * sqrt 2` for a detection sigma of the LoG/DoG sigma list, and
to `sigma` itself for DoH. -/
theorem C2_radius_scale (img : Image) (pl : LogParams) (pd : DogParams) (ph : DohParams) :
    (blobsOf (detect_log img pl)).Forall
        (fun b => ∃ s ∈ sigmaListLin pl.min_sigma pl.max_sigma pl.num_sigma,
          b.radius = Real.sqrt 2 * (s : ℝ)) ∧
      (blobsOf (detect_dog img pd)).Forall
        (fun b => ∃ s ∈ dogSigmaList pd.min_sigma pd.sigma_ratio pd.max_sigma,
          b.radius = Real.sqrt 2 * (s : ℝ)) ∧
      (blobsOf (detect_doh img ph)).Forall
        (fun b => ∃ s ∈ sigmaListLin ph.min_sigma ph.max_sigma ph.num_sigma,
          b.radius = (s : ℝ)) := by
  refine ⟨?_, ?_, ?_⟩
  · rcases blobsOf_detect_log img pl with h | h <;> rw [h]
    · trivial
    · exact forall_radius_of_pruned radLog _ _ _ _ (le_refl _) _
        (fun c hc => List.mem_of_mem_filter (pruneBlobs_subset _ _ _ c hc))
  · rcases blobsOf_detect_dog img pd with h | h <;> rw [h]
    · trivial
    · exact forall_radius_of_pruned radLog _ _ _ _ (Nat.sub_le _ _) _
        (fun c hc => List.mem_of_mem_filter (pruneBlobs_subset _ _ _ c hc))
  · rcases blobsOf_detect_doh img ph with h | h <;> rw [h]
    · trivial
    · exact forall_radius_of_pruned radDoh _ _ _ _ (le_refl _) _
        (fun c hc => pruneBlobs_subset _ _ _ c ((polFilter_sublist _ _).subset hc))

/-- Claim C3: each entry point fails with `InvalidParameter` exactly when
a sigma is non-positive, `min_sigma > max_sigma`, `threshold ≤ 0`,
`overlap` is outside `[0, 1]`, or `num_sigma < 1`; with valid parameters
a zero-dimension image fails with `EmptyImage`; a full blob list is
returned exactly when parameters are valid and the image is non-empty
(no partial results). -/
theorem C3_validation (img : Image) (pl : LogParams) (pd : DogParams) (ph : DohParams) :
    (detect_log img pl = .error .InvalidParameter ↔
        pl.min_sigma ≤ 0 ∨ pl.max_sigma ≤ 0 ∨ pl.max_sigma < pl.min_sigma ∨
          pl.threshold ≤ 0 ∨ pl.overlap < 0 ∨ 1 < pl.overlap ∨ pl.num_sigma < 1) ∧
      (validLog pl → (detect_log img pl = .error .EmptyImage ↔ img.H = 0 ∨ img.W = 0)) ∧
      ((∃ bs, detect_log img pl = .ok bs) ↔ validLog pl ∧ ¬(img.H = 0 ∨ img.W = 0)) ∧
      (detect_dog img pd = .error .InvalidParameter ↔
        pd.min_sigma ≤ 0 ∨ pd.max_sigma ≤ 0 ∨ pd.max_sigma < pd.min_sigma ∨
          pd.threshold ≤ 0 ∨ pd.overlap < 0 ∨ 1 < pd.overlap) ∧
      (validDog pd → (detect_dog img pd = .error .EmptyImage ↔ img.H = 0 ∨ img.W = 0)) ∧
      ((∃ bs, detect_dog img pd = .ok bs) ↔ validDog pd ∧ ¬(img.H = 0 ∨ img.W = 0)) ∧
      (detect_doh img ph = .error .InvalidParameter ↔
        ph.min_sigma ≤ 0 ∨ ph.max_sigma ≤ 0 ∨ ph.max_sigma < ph.min_sigma ∨
          ph.threshold ≤ 0 ∨ ph.overlap < 0 ∨ 1 < ph.overlap ∨ ph.num_sigma < 1) ∧
      (validDoh ph → (detect_doh img ph = .error .EmptyImage ↔ img.H = 0 ∨ img.W = 0)) ∧
      ((∃ bs, detect_doh img ph = .ok bs) ↔ validDoh ph ∧ ¬(img.H = 0 ∨ img.W = 0)) := by
  refine ⟨(detect_log_invalid_iff img pl).trans (not_validLog_iff pl), ?_,
    detect_log_ok_iff img pl,
    (detect_dog_invalid_iff img pd).trans (not_validDog_iff pd), ?_,
    detect_dog_ok_iff img pd,
    (detect_doh_invalid_iff img ph).trans (not_validDoh_iff ph), ?_,
    detect_doh_ok_iff img ph⟩
  · intro hv
    rw [detect_log_empty_iff]
    simp [hv]
  · intro hv
    rw [detect_dog_empty_iff]
    simp [hv]
  · intro hv
    rw [detect_doh_empty_iff]
    simp [hv]

/-- Claim C4: the Local Extrema Detector returns exactly the in-range
triples whose response magnitude exceeds the threshold and whose 3x3x3
(edge-clamped) neighbourhood contains no strictly larger magnitude; the
output has no duplicates, and membership is characterised point-wise by
the cube values alone, hence independent of scan order. -/
theorem C4_local_extrema_characterisation (cube : Cube) (t : ℚ) :
    (∀ i : ℕ × ℕ × ℕ,
        i ∈ localExtrema cube t ↔
          i.1 < cube.S ∧ i.2.1 < cube.H ∧ i.2.2 < cube.W ∧
            t < |cube.val i.1 i.2.1 i.2.2| ∧
            ∀ o ∈ offsets,
              |cube.valC ((i.1 : ℤ) + o.1) ((i.2.1 : ℤ) + o.2.1) ((i.2.2 : ℤ) + o.2.2)| ≤
                |cube.val i.1 i.2.1 i.2.2|) ∧
      (localExtrema cube t).Nodup := by
  constructor
  · intro i
    unfold localExtrema
    rw [List.mem_filter, mem_cubeIndices]
    unfold isPeakB
    simp only [Bool.and_eq_true, decide_eq_true_eq, List.all_eq_true]
    tauto
  · exact List.Nodup.filter _ (nodup_cubeIndices cube)

/-- Claim C5: the Blob Pruner sorts candidates by response magnitude
descending with larger radius (sigma) breaking ties, keeps only
candidates pairwise within the overlap bound, drops a candidate only
when some kept candidate exceeds the bound against it, and with
`overlap = 1` returns all candidates unfiltered (sorted). -/
theorem C5_pruner_greedy (rad : ℚ → ℝ) (ov : ℚ) (l : List Cand) :
    (sortCands l).Sorted candLE ∧
      (sortCands l).Perm l ∧
      (ov = 1 → pruneBlobs rad ov l = sortCands l) ∧
      List.Sublist (pruneBlobs rad ov l) (sortCands l) ∧
      (ov ≠ 1 → (pruneBlobs rad ov l).Pairwise (compat rad ov)) ∧
      (∀ c ∈ sortCands l, c ∉ pruneBlobs rad ov l →
        ∃ k ∈ pruneBlobs rad ov l, (ov : ℝ) < candOverlap rad k c) := by
  refine ⟨sortCands_sorted l, sortCands_perm l, ?_, pruneBlobs_sublist rad ov l,
    fun h => pruneBlobs_pairwise rad ov l h, ?_⟩
  · rintro rfl
    exact pruneBlobs_overlap_one rad l
  · intro c hc hnot
    obtain ⟨k, hk, hkc⟩ := pruneBlobs_dropped rad ov l c hc hnot
    exact ⟨k, hk, not_le.mp hkc⟩

/-- Claim C6: for a fixed image and parameter set and thresholds
`0 < t1 ≤ t2`, each detector returns at most as many blobs at `t2` as at
`t1`, and before pruning the `t2` candidate set is contained in the `t1`
candidate set. -/
theorem C6_threshold_monotonicity (img : Image) (pl : LogParams) (pd : DogParams)
    (ph : DohParams) (t1 t2 : ℚ) (h1 : 0 < t1) (h12 : t1 ≤ t2) :
    ((blobsOf (detect_log img { pl with threshold := t2 })).length ≤
          (blobsOf (detect_log img { pl with threshold := t1 })).length ∧
        logCandidates img { pl with threshold := t2 } ⊆
          logCandidates img { pl with threshold := t1 }) ∧
      ((blobsOf (detect_dog img { pd with threshold := t2 })).length ≤
          (blobsOf (detect_dog img { pd with threshold := t1 })).length ∧
        dogCandidates img { pd with threshold := t2 } ⊆
          dogCandidates img { pd with threshold := t1 }) ∧
      ((blobsOf (detect_doh img { ph with threshold := t2 })).length ≤
          (blobsOf (detect_doh img { ph with threshold := t1 })).length ∧
        dohCandidates img { ph with threshold := t2 } ⊆
          dohCandidates img { ph with threshold := t1 }) := by
  refine ⟨⟨detect_log_count_mono img pl h1 h12, ?_⟩,
    ⟨detect_dog_count_mono img pd h1 h12, ?_⟩,
    ⟨detect_doh_count_mono img ph h1 h12, ?_⟩⟩
  · rw [logCandidates_mono img pl h12]
    exact List.filter_subset' _
  · rw [dogCandidates_mono img pd h12]
    exact List.filter_subset' _
  · rw [dohCandidates_mono img ph h12]
    exact List.filter_subset' _

/-- Claim C6 witness. -/
theorem C6_threshold_monotonicity_witness :
    ((blobsOf (detect_log ⟨4, 4, fun _ _ => 0⟩
            { ({} : LogParams) with threshold := 2 })).length ≤
          (blobsOf (detect_log ⟨4, 4, fun _ _ => 0⟩
            { ({} : LogParams) with threshold := 1 })).length ∧
        logCandidates ⟨4, 4, fun _ _ => 0⟩ { ({} : LogParams) with threshold := 2 } ⊆
          logCandidates ⟨4, 4, fun _ _ => 0⟩ { ({} : LogParams) with threshold := 1 }) ∧
      ((blobsOf (detect_dog ⟨4, 4, fun _ _ => 0⟩
            { ({} : DogParams) with threshold := 2 })).length ≤
          (blobsOf (detect_dog ⟨4, 4, fun _ _ => 0⟩
            { ({} : DogParams) with threshold := 1 })).length ∧
        dogCandidates ⟨4, 4, fun _ _ => 0⟩ { ({} : DogParams) with threshold := 2 } ⊆
          dogCandidates ⟨4, 4, fun _ _ => 0⟩ { ({} : DogParams) with threshold := 1 }) ∧
      ((blobsOf (detect_doh ⟨4, 4, fun _ _ => 0⟩
            { ({} : DohParams) with threshold := 2 })).length ≤
          (blobsOf (detect_doh ⟨4, 4, fun _ _ => 0⟩
            { ({} : DohParams) with threshold := 1 })).length ∧
        dohCandidates ⟨4, 4, fun _ _ => 0⟩ { ({} : DohParams) with threshold := 2 } ⊆
          dohCandidates ⟨4, 4, fun _ _ => 0⟩ { ({} : DohParams) with threshold := 1 }) :=
  C6_threshold_monotonicity ⟨4, 4, fun _ _ => 0⟩ {} {} {} 1 2 (by norm_num) (by norm_num)

/-- Claim C7: on a constant-valued image every detector (with valid
parameters, in particular `threshold > 0`, and a non-empty image)
returns the empty blob list. -/
theorem C7_flat_image_empty (img : Image) (v : ℚ) (pl : LogParams) (pd : DogParams)
    (ph : DohParams) (hf : IsFlat img v) (hH : img.H ≠ 0) (hW : img.W ≠ 0)
    (hvl : validLog pl) (hvd : validDog pd) (hvh : validDoh ph) :
    detect_log img pl = .ok [] ∧ detect_dog img pd = .ok [] ∧
      detect_doh img ph = .ok [] :=
  ⟨detect_log_flat hf hvl hH hW, detect_dog_flat hf hvd hH hW, detect_doh_flat hf hvh hH hW⟩

/-- Claim C7 witness. -/
theorem C7_flat_image_empty_witness :
    detect_log ⟨5, 5, fun _ _ => 3⟩ {} = .ok [] ∧
      detect_dog ⟨5, 5, fun _ _ => 3⟩ {} = .ok [] ∧
      detect_doh ⟨5, 5, fun _ _ => 3⟩ {} = .ok [] :=
  C7_flat_image_empty ⟨5, 5, fun _ _ => 3⟩ 3 {} {} {} (fun _ _ => rfl) (by norm_num)
    (by norm_num) (by constructor <;> norm_num [validCommon])
    (by norm_num [validDog, validCommon])
    (by constructor <;> norm_num [validCommon])

/-- Claim C8: LoG and DoG search only negative (bright-on-dark) extrema,
so all their candidates have negative response and all their blobs are
tagged bright; DoH assigns each maximum the polarity given by the sign
of the Hessian trace at that maximum, so both polarities occur. -/
theorem C8_polarity (img : Image) (pl : LogParams) (pd : DogParams) (ph : DohParams) :
    (logCandidates img pl).Forall (fun c => c.resp < 0) ∧
      (dogCandidates img pd).Forall (fun c => c.resp < 0) ∧
      (blobsOf (detect_log img pl)).Forall (fun b => b.pol = Polarity.bright) ∧
      (blobsOf (detect_dog img pd)).Forall (fun b => b.pol = Polarity.bright) ∧
      (dohCandidates img ph).Forall (fun c =>
        c.pol = if dohTrace img c.sigma c.row c.col < 0 then Polarity.bright
          else Polarity.dark) := by
  refine ⟨?_, ?_, ?_, ?_, ?_⟩
  · rw [List.forall_iff_forall_mem]
    intro c hc
    have := (List.mem_filter.mp hc).2
    rwa [decide_eq_true_eq] at this
  · rw [List.forall_iff_forall_mem]
    intro c hc
    have := (List.mem_filter.mp hc).2
    rwa [decide_eq_true_eq] at this
  · rcases blobsOf_detect_log img pl with h | h <;> rw [h]
    · trivial
    · rw [List.forall_iff_forall_mem]
      intro b hb
      obtain ⟨c, hc, rfl⟩ := List.mem_map.mp hb
      have hc2 : c ∈ logCandidates img pl := pruneBlobs_subset _ _ _ c hc
      obtain ⟨i, _, rfl⟩ := mem_cubeCandidates (List.mem_of_mem_filter hc2)
      rfl
  · rcases blobsOf_detect_dog img pd with h | h <;> rw [h]
    · trivial
    · rw [List.forall_iff_forall_mem]
      intro b hb
      obtain ⟨c, hc, rfl⟩ := List.mem_map.mp hb
      have hc2 : c ∈ dogCandidates img pd := pruneBlobs_subset _ _ _ c hc
      obtain ⟨i, _, rfl⟩ := mem_cubeCandidates (List.mem_of_mem_filter hc2)
      rfl
  · rw [List.forall_iff_forall_mem]
    intro c hc
    obtain ⟨i, _, rfl⟩ := mem_cubeCandidates hc
    rfl

/-- Claim C9: each detector is a pure function (repeated calls agree),
and the returned sequence is ordered by response strength descending. -/
theorem C9_determinism_sorted (img : Image) (pl : LogParams) (pd : DogParams)
    (ph : DohParams) :
    detect_log img pl = detect_log img pl ∧
      detect_dog img pd = detect_dog img pd ∧
      detect_doh img ph = detect_doh img ph ∧
      (logPruned img pl).Pairwise (fun a b => |b.resp| ≤ |a.resp|) ∧
      (dogPruned img pd).Pairwise (fun a b => |b.resp| ≤ |a.resp|) ∧
      (polFilter ph.detect_polarity (dohPruned img ph)).Pairwise
        (fun a b => |b.resp| ≤ |a.resp|) := by
  refine ⟨rfl, rfl, rfl, ?_, ?_, ?_⟩
  · exact (pruneBlobs_sorted radLog _ _).imp fun h => candLE_resp _ _ h
  · exact (pruneBlobs_sorted radLog _ _).imp fun h => candLE_resp _ _ h
  · exact List.Pairwise.sublist (polFilter_sublist _ _)
      ((pruneBlobs_sorted radDoh _ _).imp fun h => candLE_resp _ _ h)

/-- Claim C10: each public entry point supplies defaults for the omitted
parameters: `blob_log` called with only image, `max_sigma`, `num_sigma`
and `threshold`, `blob_dog` and `blob_doh` with only image, `max_sigma`
and `threshold`, behave as the fully-parameterised calls with
`min_sigma = 1`, `overlap = 1/2`, `sigma_ratio = 8/5` (DoG),
`num_sigma = 10` (DoH), and no polarity filter. -/
theorem C10_default_parameters (img : Image) :
    blob_log img { max_sigma := 30, num_sigma := 10, threshold := 1 / 10 } =
        detect_log img
          { min_sigma := 1, max_sigma := 30, num_sigma := 10, threshold := 1 / 10,
            overlap := 1 / 2 } ∧
      blob_dog img { max_sigma := 30, threshold := 1 / 10 } =
        detect_dog img
          { min_sigma := 1, max_sigma := 30, sigma_ratio := 8 / 5, threshold := 1 / 10,
            overlap := 1 / 2 } ∧
      blob_doh img { max_sigma := 30, threshold := 1 / 100 } =
        detect_doh img
          { min_sigma := 1, max_sigma := 30, num_sigma := 10, threshold := 1 / 100,
            overlap := 1 / 2, detect_polarity := none } :=
  ⟨rfl, rfl, rfl⟩

/-- Claim C2 witness. -/
theorem C2_radius_scale_witness :
    (blobsOf (detect_log ⟨4, 4, fun _ _ => 0⟩ {})).Forall
      (fun b => ∃ s ∈ sigmaListLin ({} : LogParams).min_sigma ({} : LogParams).max_sigma
        ({} : LogParams).num_sigma, b.radius = Real.sqrt 2 * (s : ℝ)) :=
  (C2_radius_scale ⟨4, 4, fun _ _ => 0⟩ {} {} {}).1

/-- Claim C3 witness: inverted sigma bounds are rejected. -/
theorem C3_validation_witness :
    detect_log ⟨1, 1, fun _ _ => 0⟩ { min_sigma := 5, max_sigma := 1 } =
      .error .InvalidParameter :=
  (C3_validation ⟨1, 1, fun _ _ => 0⟩ { min_sigma := 5, max_sigma := 1 } {} {}).1.mpr
    (Or.inr (Or.inr (Or.inl (by norm_num))))

/-- Claim C4 witness. -/
theorem C4_local_extrema_characterisation_witness :
    (localExtrema ⟨1, 1, 1, fun _ _ _ => 0⟩ 1).Nodup :=
  (C4_local_extrema_characterisation ⟨1, 1, 1, fun _ _ _ => 0⟩ 1).2

/-- Claim C5 witness: with `overlap = 1` the pruner is the identity on
the sorted candidates. -/
theorem C5_pruner_greedy_witness :
    pruneBlobs (fun s => (s : ℝ)) 1 [] = sortCands [] :=
  (C5_pruner_greedy (fun s => (s : ℝ)) 1 []).2.2.1 rfl

/-- Claim C8 witness. -/
theorem C8_polarity_witness :
    (logCandidates ⟨4, 4, fun _ _ => 0⟩ {}).Forall (fun c => c.resp < 0) :=
  (C8_polarity ⟨4, 4, fun _ _ => 0⟩ {} {} {}).1

/-- Claim C9 witness. -/
theorem C9_determinism_sorted_witness :
    (logPruned ⟨4, 4, fun _ _ => 0⟩ {}).Pairwise (fun a b => |b.resp| ≤ |a.resp|) :=
  (C9_determinism_sorted ⟨4, 4, fun _ _ => 0⟩ {} {} {}).2.2.2.1

/-- Claim C10 witness. -/
theorem C10_default_parameters_witness :
    blob_log ⟨1, 1, fun _ _ => 0⟩ { max_sigma := 30, num_sigma := 10, threshold := 1 / 10 } =
      detect_log ⟨1, 1, fun _ _ => 0⟩
        { min_sigma := 1, max_sigma := 30, num_sigma := 10, threshold := 1 / 10,
          overlap := 1 / 2 } :=
  (C10_default_parameters ⟨1, 1, fun _ _ => 0⟩).1

end BlobDetect
